import Mathlib

/-!
Verification of the hotnote core: the text-anchor resolver
(src/src/utils/text-anchor.js) and the navigation-history engine
(src/app.js, addToHistory / goBack / goForward, which the design document
calls createSnapshot / undo / redo).

Documents are modelled as lists of characters (JS strings indexed by code
unit).  `doc.substring(a, b)` for 0 <= a <= b is modelled by `substring`.
The global-regex match loop of findAnchorPosition is modelled by
`collectMatches` with an explicit fuel parameter: the JS loop advances
`lastIndex` past each match, and `escapeRegex` makes the pattern a literal
string, so one exec call is "leftmost literal occurrence at index >=
lastIndex" (`execNext`).  A fuel of doc.length + 1 is enough for every run
of the JS loop that terminates; `none` marks a run of the JS loop that
never terminates (which really happens: a zero-length match never advances
lastIndex).  `findAnchorPosition` therefore returns
  - `none`              when the JS call never returns,
  - `some none`         when the JS call returns null,
  - `some (some (f,t))` when the JS call returns a position.
-/

namespace Hotnote

/-- A JS string, as its list of characters. -/
abbrev Str := List Char

/-- `doc.substring(a, b)` for `a <= b`: the characters at indices
`a, a+1, ..., b-1`, clipped to the document. -/
def substring (doc : Str) (a b : Nat) : Str :=
  (doc.drop a).take (b - a)

/-- `const CONTEXT_LENGTH = 32` in text-anchor.js. -/
def CONTEXT_LENGTH : Nat := 32

/-- The anchor object `(prefix, exact, suffix)` of text-anchor.js.  The
`prefix` field is called `pref` here because `prefix` is a reserved Lean
keyword. -/
structure Anchor where
  pref : Str
  exact : Str
  suffix : Str
deriving Repr, DecidableEq

/-- `createAnchor(doc, from, to)` from text-anchor.js.  `from` and `to`
are reserved Lean keywords, so the arguments are called `frm` and `til`.
`Math.max(0, from - CONTEXT_LENGTH)` is truncated subtraction on `Nat`. -/
def createAnchor (doc : Str) (frm til : Nat) : Anchor :=
  { pref := substring doc (frm - CONTEXT_LENGTH) frm
    exact := substring doc frm til
    suffix := substring doc til (min doc.length (til + CONTEXT_LENGTH)) }

/-- `pat` occurs literally in `doc` at index `i`. -/
def OccursAt (doc pat : Str) (i : Nat) : Prop :=
  i + pat.length ≤ doc.length ∧ substring doc i (i + pat.length) = pat

instance (doc pat : Str) (i : Nat) : Decidable (OccursAt doc pat i) := by
  unfold OccursAt; infer_instance

/-- All indices at which `pat` occurs literally in `doc` (an occurrence
index is at most `doc.length`). -/
def occList (doc pat : Str) : List Nat :=
  (List.range (doc.length + 1)).filter (fun i => decide (OccursAt doc pat i))

/-- One call of `exactRegex.exec(doc)` with `exactRegex.lastIndex = li`:
`escapeRegex` makes the pattern a literal string, so the engine returns the
leftmost literal occurrence at an index `>= li` (and `null` when there is
none, in particular when `li > doc.length`). -/
def execNext (doc pat : Str) (li : Nat) : Option Nat :=
  ((List.range' li (doc.length + 1 - li)).filter
      (fun i => decide (OccursAt doc pat i))).head?

/-- The `while ((match = exactRegex.exec(doc)) !== null)` loop of
findAnchorPosition: each match `(i, i + exact.length)` is pushed and the
engine sets `lastIndex = i + match.length`.  `fuel` bounds the number of
iterations; `none` means the fuel ran out, which at the fuel used by
`findAnchorPosition` happens exactly when the JS loop runs forever. -/
def collectMatches (doc pat : Str) : Nat → Nat → List (Nat × Nat) → Option (List (Nat × Nat))
  | 0, _, _ => none
  | fuel + 1, li, acc =>
    match execNext doc pat li with
    | none => some acc
    | some i => collectMatches doc pat fuel (i + pat.length) (acc ++ [(i, i + pat.length)])

/-- The partial-credit loops of the scoring code: number of positions,
from index 0 on, at which the two strings agree, stopping at the first
mismatch (or at the end of the shorter string). -/
def countFwd : Str → Str → Nat
  | s :: ss, a :: aa => if s = a then countFwd ss aa + 1 else 0
  | _, _ => 0

/-- The score of one candidate position in the multiple-match branch of
findAnchorPosition, counted in half points so that it stays executable:
the JS score uses the values 100 / 1 / 50 / 0.5, every one of which is a
multiple of one half, so twice the JS score is the natural number computed
here (200 for an exact suffix match, else 2 per matching leading suffix
character; 100 for an exact prefix match, else 1 per matching trailing
prefix character — the backward walk over the prefix is the forward walk
over the reversed strings).  Doubling is order-preserving, so comparisons
of half scores are exactly the comparisons the JS comparator makes. -/
def halfScore (doc : Str) (anchor : Anchor) (m : Nat × Nat) : Nat :=
  let actualPref := substring doc (m.1 - CONTEXT_LENGTH) m.1
  let actualSuffix := substring doc m.2 (min doc.length (m.2 + CONTEXT_LENGTH))
  (if anchor.suffix ≠ [] ∧ anchor.suffix.isPrefixOf actualSuffix then 200
    else 2 * countFwd anchor.suffix actualSuffix)
  + (if anchor.pref ≠ [] ∧ anchor.pref.isSuffixOf actualPref then 100
    else countFwd anchor.pref.reverse actualPref.reverse)

/-- The JS score itself (+100 exact suffix match, else +1 per matching
character; +50 exact prefix match, else +0.5 per matching character): half
of `halfScore`, as a rational. -/
def scoreMatch (doc : Str) (anchor : Anchor) (m : Nat × Nat) : ℚ :=
  (halfScore doc anchor m : ℚ) / 2

/-- `scoredMatches.sort((a, b) => b.score - a.score)` followed by taking
element 0: JS sort is stable, so the result is the first element of the
list whose score is maximal.  The fold keeps the current best and replaces
it only on a strictly greater score; it compares half scores, which order
candidates exactly as the JS scores do. -/
def bestOf (doc : Str) (anchor : Anchor) (first : Nat × Nat) (rest : List (Nat × Nat)) : Nat × Nat :=
  rest.foldl (fun b m => if halfScore doc anchor b < halfScore doc anchor m then m else b) first

/-- `findAnchorPosition(doc, anchor)` from text-anchor.js.
Outer `none`: the JS call never returns; `some none`: it returns null;
`some (some (f, t))`: it returns the position (f, t). -/
def findAnchorPosition (doc : Str) (anchor : Anchor) : Option (Option (Nat × Nat)) :=
  if doc.length = 0 then some none
  else
    match collectMatches doc anchor.exact (doc.length + 1) 0 [] with
    | none => none
    | some [] => some none
    | some [m] => some (some m)
    | some (m₁ :: m₂ :: rest) => some (some (bestOf doc anchor m₁ (m₂ :: rest)))

/-! ## The navigation-history engine of app.js

`navigationHistory` and `historyIndex` (initially `[]` and `-1`).  The
entries pushed by `addToHistory` are opaque to the index logic, so the
state is parametrised by the entry type.  The design document calls these
operations createSnapshot / undo / redo on a FileHistory
(snapshots, currentIndex). -/

structure HistState (α : Type) where
  navigationHistory : List α
  historyIndex : Int
deriving Repr, DecidableEq

/-- `navigationHistory = []; historyIndex = -1` (app.js lines 36-37). -/
def initialHistState {α : Type} : HistState α :=
  { navigationHistory := [], historyIndex := -1 }

/-- `addToHistory` (app.js lines 355-368):
`navigationHistory = navigationHistory.slice(0, historyIndex + 1)`, push
the new entry, `historyIndex = navigationHistory.length - 1`. -/
def addToHistory {α : Type} (entry : α) (s : HistState α) : HistState α :=
  let pushed := s.navigationHistory.take (s.historyIndex + 1).toNat ++ [entry]
  { navigationHistory := pushed, historyIndex := (pushed.length : Int) - 1 }

/-- `goBack` (app.js lines 378-387): early return when
`historyIndex <= 0`, else decrement and load
`navigationHistory[historyIndex]`.  The loaded entry (the snapshot the
design document says undo returns) is the first component. -/
def goBack {α : Type} (s : HistState α) : Option α × HistState α :=
  if s.historyIndex ≤ 0 then (none, s)
  else
    (s.navigationHistory[(s.historyIndex - 1).toNat]?,
      { navigationHistory := s.navigationHistory, historyIndex := s.historyIndex - 1 })

/-- `goForward` (app.js lines 439-448): early return when
`historyIndex >= navigationHistory.length - 1`, else increment and load
`navigationHistory[historyIndex]`. -/
def goForward {α : Type} (s : HistState α) : Option α × HistState α :=
  if (s.navigationHistory.length : Int) - 1 ≤ s.historyIndex then (none, s)
  else
    (s.navigationHistory[(s.historyIndex + 1).toNat]?,
      { navigationHistory := s.navigationHistory, historyIndex := s.historyIndex + 1 })

/-! ## Basic facts about substrings and occurrences -/

lemma substring_length (doc : Str) (a b : Nat) :
    (substring doc a b).length = min (b - a) (doc.length - a) := by
  simp [substring]

lemma substring_self (doc : Str) (a b c : Nat) (h : b = c) :
    substring doc a b = substring doc a c := by rw [h]

lemma OccursAt.bound {doc pat : Str} {i : Nat} (h : OccursAt doc pat i) :
    i + pat.length ≤ doc.length := h.1

lemma occursAt_nil (doc : Str) (i : Nat) (h : i ≤ doc.length) : OccursAt doc [] i := by
  refine ⟨by simpa using h, ?_⟩
  simp [substring]

/-- The selected text of an in-bounds selection occurs at its own start
position. -/
lemma occursAt_substring (doc : Str) (frm til : Nat) (h1 : frm ≤ til)
    (h2 : til ≤ doc.length) : OccursAt doc (substring doc frm til) frm := by
  have hlen : (substring doc frm til).length = til - frm := by
    rw [substring_length]; omega
  constructor
  · omega
  · rw [hlen]
    exact substring_self doc frm _ _ (by omega)

/-- Membership in `occList` is exactly literal occurrence. -/
lemma mem_occList (doc pat : Str) (i : Nat) :
    i ∈ occList doc pat ↔ OccursAt doc pat i := by
  unfold occList
  rw [List.mem_filter, List.mem_range, decide_eq_true_iff]
  constructor
  · exact fun h => h.2
  · intro h
    exact ⟨by have := h.bound; omega, h⟩

/-! ## The single-step scan `execNext` -/

lemma head?_filter_range'_some {p : Nat → Bool} :
    ∀ (n a j : Nat), ((List.range' a n).filter p).head? = some j →
      a ≤ j ∧ p j = true ∧ ∀ k, a ≤ k → k < j → ¬ p k = true := by
  intro n
  induction n with
  | zero => intro a j h; simp at h
  | succ n ih =>
    intro a j h
    rw [List.range'_succ] at h
    by_cases hpa : p a = true
    · rw [List.filter_cons_of_pos hpa, List.head?_cons, Option.some_inj] at h
      subst h
      exact ⟨le_refl _, hpa, fun k hk1 hk2 => absurd (lt_of_le_of_lt hk1 hk2) (lt_irrefl _)⟩
    · rw [List.filter_cons_of_neg hpa] at h
      obtain ⟨h1, h2, h3⟩ := ih (a + 1) j h
      refine ⟨by omega, h2, fun k hk1 hk2 => ?_⟩
      rcases Nat.eq_or_lt_of_le hk1 with rfl | hk1'
      · exact hpa
      · exact h3 k hk1' hk2

lemma head?_filter_range'_none {p : Nat → Bool} (n a : Nat)
    (h : ((List.range' a n).filter p).head? = none) :
    ∀ k, a ≤ k → k < a + n → ¬ p k = true := by
  rw [List.head?_eq_none_iff, List.filter_eq_nil_iff] at h
  intro k hk1 hk2
  exact h k (by rw [List.mem_range'_1]; omega)

lemma execNext_some {doc pat : Str} {li j : Nat} (h : execNext doc pat li = some j) :
    li ≤ j ∧ OccursAt doc pat j ∧ ∀ k, li ≤ k → k < j → ¬ OccursAt doc pat k := by
  obtain ⟨h1, h2, h3⟩ := head?_filter_range'_some _ _ _ h
  rw [decide_eq_true_iff] at h2
  refine ⟨h1, h2, fun k hk1 hk2 hk3 => h3 k hk1 hk2 ?_⟩
  rwa [decide_eq_true_iff]

lemma execNext_none {doc pat : Str} {li : Nat} (h : execNext doc pat li = none) :
    ∀ k, li ≤ k → ¬ OccursAt doc pat k := by
  intro k hk hocc
  have hb := hocc.bound
  have hk2 : k < li + (doc.length + 1 - li) := by omega
  have := head?_filter_range'_none _ _ h k hk hk2
  rw [decide_eq_true_iff] at this
  exact this hocc

/-- When `pat` occurs at some index at or beyond `li`, the scan finds a
(leftmost) occurrence. -/
lemma execNext_isSome {doc pat : Str} {li k : Nat} (hk : li ≤ k)
    (hocc : OccursAt doc pat k) : ∃ j, execNext doc pat li = some j ∧ j ≤ k := by
  cases h : execNext doc pat li with
  | none => exact absurd hocc (execNext_none h k hk)
  | some j =>
    refine ⟨j, rfl, ?_⟩
    by_contra hlt
    exact (execNext_some h).2.2 k hk (by omega) hocc

/-! ## The match-collection loop -/

/-- The accumulator is a prefix of whatever the loop returns. -/
lemma collectMatches_append {doc pat : Str} :
    ∀ {fuel li : Nat} {acc ms : List (Nat × Nat)},
      collectMatches doc pat fuel li acc = some ms → ∃ tl, ms = acc ++ tl := by
  intro fuel
  induction fuel with
  | zero => intro li acc ms h; simp [collectMatches] at h
  | succ fuel ih =>
    intro li acc ms h
    rw [collectMatches] at h
    cases hx : execNext doc pat li with
    | none =>
      rw [hx] at h
      exact ⟨[], by simpa using (Option.some_inj.mp h).symm⟩
    | some i =>
      rw [hx] at h
      obtain ⟨tl, htl⟩ := ih h
      exact ⟨(i, i + pat.length) :: tl, by simp [htl]⟩

/-- Everything the loop returns beyond the accumulator is an occurrence
paired with its end index. -/
lemma collectMatches_occurs {doc pat : Str} :
    ∀ {fuel li : Nat} {acc ms : List (Nat × Nat)},
      collectMatches doc pat fuel li acc = some ms →
      (∀ m ∈ acc, OccursAt doc pat m.1 ∧ m.2 = m.1 + pat.length) →
      ∀ m ∈ ms, OccursAt doc pat m.1 ∧ m.2 = m.1 + pat.length := by
  intro fuel
  induction fuel with
  | zero => intro li acc ms h; simp [collectMatches] at h
  | succ fuel ih =>
    intro li acc ms h hacc
    rw [collectMatches] at h
    cases hx : execNext doc pat li with
    | none =>
      rw [hx] at h
      rw [← Option.some_inj.mp h]
      exact hacc
    | some i =>
      rw [hx] at h
      refine ih h (fun m hm => ?_)
      rcases List.mem_append.mp hm with hm' | hm'
      · exact hacc m hm'
      · rcases List.mem_singleton.mp hm' with rfl
        exact ⟨(execNext_some hx).2.1, rfl⟩

/-- Every occurrence at or beyond the current scan position is covered by
some returned match: it starts inside that match's span. -/
lemma collectMatches_cover {doc pat : Str} :
    ∀ {fuel li : Nat} {acc ms : List (Nat × Nat)},
      collectMatches doc pat fuel li acc = some ms →
      ∀ p, li ≤ p → OccursAt doc pat p →
        ∃ m ∈ ms, m.1 ≤ p ∧ p < m.1 + pat.length := by
  intro fuel
  induction fuel with
  | zero => intro li acc ms h; simp [collectMatches] at h
  | succ fuel ih =>
    intro li acc ms h p hp hocc
    rw [collectMatches] at h
    cases hx : execNext doc pat li with
    | none =>
      rw [hx] at h
      exact absurd hocc (execNext_none hx p hp)
    | some i =>
      rw [hx] at h
      obtain ⟨hli, hocc_i, hmin⟩ := execNext_some hx
      rcases Nat.lt_or_ge p (i + pat.length) with hlt | hge
      · have hip : i ≤ p := by
          by_contra hip
          exact hmin p hp (by omega) hocc
        obtain ⟨tl, rfl⟩ := collectMatches_append h
        exact ⟨(i, i + pat.length), by simp, hip, hlt⟩
      · exact ih h p hge hocc

/-- For a non-empty pattern the returned match list is strictly increasing
in start position (candidates appear in document order). -/
lemma collectMatches_sorted {doc pat : Str} (hpat : pat ≠ []) :
    ∀ {fuel li : Nat} {acc ms : List (Nat × Nat)},
      collectMatches doc pat fuel li acc = some ms →
      acc.Pairwise (fun x y => x.1 < y.1) →
      (∀ m ∈ acc, m.2 ≤ li) →
      (∀ m ∈ acc, m.2 = m.1 + pat.length) →
      ms.Pairwise (fun x y => x.1 < y.1) := by
  have hL : 1 ≤ pat.length := by
    cases pat with
    | nil => exact absurd rfl hpat
    | cons c cs => simp
  intro fuel
  induction fuel with
  | zero => intro li acc ms h; simp [collectMatches] at h
  | succ fuel ih =>
    intro li acc ms h hpair hle heq
    rw [collectMatches] at h
    cases hx : execNext doc pat li with
    | none =>
      rw [hx] at h
      rw [← Option.some_inj.mp h]
      exact hpair
    | some i =>
      rw [hx] at h
      obtain ⟨hli, _, _⟩ := execNext_some hx
      refine ih h ?_ ?_ ?_
      · rw [List.pairwise_append]
        refine ⟨hpair, List.pairwise_singleton _ _, fun m hm m' hm' => ?_⟩
        rcases List.mem_singleton.mp hm' with rfl
        have := hle m hm
        have := heq m hm
        omega
      · intro m hm
        rcases List.mem_append.mp hm with hm' | hm'
        · have := hle m hm'; omega
        · rcases List.mem_singleton.mp hm' with rfl; rfl
      · intro m hm
        rcases List.mem_append.mp hm with hm' | hm'
        · exact heq m hm'
        · rcases List.mem_singleton.mp hm' with rfl; rfl

/-- With an empty pattern the loop never advances: a zero-length match
leaves lastIndex at 0, so every fuel bound is exhausted (the JS loop runs
forever). -/
lemma collectMatches_nil_pat (doc : Str) :
    ∀ (fuel : Nat) (acc : List (Nat × Nat)),
      collectMatches doc [] fuel 0 acc = none := by
  have hx : execNext doc [] 0 = some 0 := by
    unfold execNext
    rw [show doc.length + 1 - 0 = doc.length + 1 from rfl, List.range'_succ,
      List.filter_cons_of_pos (by simp [decide_eq_true_iff]; exact occursAt_nil doc 0 (Nat.zero_le _)),
      List.head?_cons]
  intro fuel
  induction fuel with
  | zero => intro acc; rfl
  | succ fuel ih =>
    intro acc
    rw [collectMatches, hx]
    exact ih _

/-- With a non-empty pattern, fuel `doc.length + 1` never runs out: every
iteration moves lastIndex strictly forward but never beyond the document
end. -/
lemma collectMatches_total {doc pat : Str} (hpat : pat ≠ []) :
    ∀ (fuel li : Nat) (acc : List (Nat × Nat)),
      doc.length + 1 - li ≤ fuel → 1 ≤ fuel →
      ∃ ms, collectMatches doc pat fuel li acc = some ms := by
  have hL : 1 ≤ pat.length := by
    cases pat with
    | nil => exact absurd rfl hpat
    | cons c cs => simp
  intro fuel
  induction fuel with
  | zero => intro li acc h1 h2; omega
  | succ fuel ih =>
    intro li acc h1 _
    rw [collectMatches]
    cases hx : execNext doc pat li with
    | none => exact ⟨acc, rfl⟩
    | some i =>
      obtain ⟨hli, hocc, _⟩ := execNext_some hx
      have hb := hocc.bound
      exact ih (i + pat.length) _ (by omega) (by omega)

/-- One unfolding step of the loop. -/
lemma collectMatches_succ (doc pat : Str) (fuel li : Nat) (acc : List (Nat × Nat)) :
    collectMatches doc pat (fuel + 1) li acc =
      match execNext doc pat li with
      | none => some acc
      | some i => collectMatches doc pat fuel (i + pat.length) (acc ++ [(i, i + pat.length)]) := rfl

/-- When the pattern occurs exactly once, the full scan returns exactly
that one match. -/
lemma collectMatches_unique {doc pat : Str} {p : Nat} (hpat : pat ≠ [])
    (hp : OccursAt doc pat p) (huniq : ∀ i, OccursAt doc pat i → i = p) :
    collectMatches doc pat (doc.length + 1) 0 [] = some [(p, p + pat.length)] := by
  have hL : 1 ≤ pat.length := by
    cases pat with
    | nil => exact absurd rfl hpat
    | cons c cs => simp
  have hb := hp.bound
  obtain ⟨j, hj, hjp⟩ := execNext_isSome (Nat.zero_le p) hp
  have hj_eq : j = p := huniq j (execNext_some hj).2.1
  subst hj_eq
  have hnone : execNext doc pat (j + pat.length) = none := by
    cases hx : execNext doc pat (j + pat.length) with
    | none => rfl
    | some j' =>
      obtain ⟨hle, hocc', _⟩ := execNext_some hx
      have := huniq j' hocc'
      omega
  obtain ⟨len', hlen'⟩ : ∃ len', doc.length = len' + 1 := ⟨doc.length - 1, by omega⟩
  rw [hlen']
  simp only [collectMatches_succ, hj, hnone]
  simp

/-! ## The stable argmax fold

`sort` with comparator `(a, b) => b.score - a.score` is stable in JS, so
taking element 0 afterwards yields the first element of the original list
whose score is maximal.  The fold in `bestOf` replaces the current best
only on a strictly greater score, which selects exactly that element: the
lemma expresses this as a decomposition, everything strictly before the
result scores strictly less, and nothing scores more. -/

lemma foldl_max_first {α β : Type} [LinearOrder β] (f : α → β) :
    ∀ (l : List α) (b : α),
      ∃ l₁ l₂,
        b :: l = l₁ ++ (l.foldl (fun x y => if f x < f y then y else x) b) :: l₂
        ∧ (∀ x ∈ l₁, f x < f (l.foldl (fun x y => if f x < f y then y else x) b))
        ∧ ∀ x ∈ b :: l, f x ≤ f (l.foldl (fun x y => if f x < f y then y else x) b) := by
  intro l
  induction l with
  | nil =>
    intro b
    exact ⟨[], [], rfl, by simp, by simp⟩
  | cons m l ih =>
    intro b
    rw [List.foldl_cons]
    by_cases hbm : f b < f m
    · rw [if_pos hbm]
      obtain ⟨l₁, l₂, hdec, hlt, hle⟩ := ih m
      refine ⟨b :: l₁, l₂, by rw [List.cons_append, ← hdec], ?_, ?_⟩
      · intro x hx
        rcases List.mem_cons.mp hx with rfl | hx'
        · exact lt_of_lt_of_le hbm (hle m (List.mem_cons_self _ _))
        · exact hlt x hx'
      · intro x hx
        rcases List.mem_cons.mp hx with rfl | hx'
        · exact le_of_lt (lt_of_lt_of_le hbm (hle m (List.mem_cons_self _ _)))
        · exact hle x hx'
    · rw [if_neg hbm]
      obtain ⟨l₁, l₂, hdec, hlt, hle⟩ := ih b
      cases l₁ with
      | nil =>
        have hrb : l.foldl (fun x y => if f x < f y then y else x) b = b := by
          have := hdec
          simp at this
          exact this.1.symm
        refine ⟨[], m :: l, ?_, by simp, ?_⟩
        · rw [hrb]
          simp
        · intro x hx
          rcases List.mem_cons.mp hx with rfl | hx'
          · exact hle x (by rw [hdec, hrb]; simp)
          · rcases List.mem_cons.mp hx' with rfl | hx''
            · rw [hrb]; exact le_of_not_lt hbm
            · exact hle x (List.mem_cons_of_mem _ hx'')
      | cons b' l₁' =>
        have hb' : b' = b := by
          have := congrArg List.head? hdec
          simpa using this.symm
        subst hb'
        have hl : l = l₁' ++ (l.foldl (fun x y => if f x < f y then y else x) b') :: l₂ := by
          have := congrArg List.tail hdec
          simpa using this
        refine ⟨b' :: m :: l₁', l₂, ?_, ?_, ?_⟩
        · rw [List.cons_append, List.cons_append, ← hl]
        · intro x hx
          rcases List.mem_cons.mp hx with rfl | hx'
          · exact hlt x (List.mem_cons_self _ _)
          · rcases List.mem_cons.mp hx' with rfl | hx''
            · exact lt_of_le_of_lt (le_of_not_lt hbm) (hlt b' (List.mem_cons_self _ _))
            · exact hlt x (List.mem_cons_of_mem _ hx'')
        · intro x hx
          rcases List.mem_cons.mp hx with rfl | hx'
          · exact hle x (List.mem_cons_self _ _)
          · rcases List.mem_cons.mp hx' with rfl | hx''
            · exact le_trans (le_of_not_lt hbm) (hle b' (List.mem_cons_self _ _))
            · exact hle x (List.mem_cons_of_mem _ hx'')

/-- The result of `bestOf` is one of the candidates. -/
lemma bestOf_mem (doc : Str) (anchor : Anchor) (first : Nat × Nat)
    (rest : List (Nat × Nat)) : bestOf doc anchor first rest ∈ first :: rest := by
  obtain ⟨l₁, l₂, hdec, _, _⟩ := foldl_max_first (halfScore doc anchor) rest first
  rw [hdec]
  simp [bestOf]

/-- Halving is strictly monotone, so the executable half score orders and
ties candidates exactly as the JS score does. -/
lemma scoreMatch_strictMono :
    StrictMono (fun n : Nat => (n : ℚ) / 2) := by
  intro a b h
  have hq : (a : ℚ) < (b : ℚ) := by exact_mod_cast h
  linarith

lemma scoreMatch_le_iff (doc : Str) (anchor : Anchor) (m m' : Nat × Nat) :
    scoreMatch doc anchor m ≤ scoreMatch doc anchor m' ↔
      halfScore doc anchor m ≤ halfScore doc anchor m' :=
  scoreMatch_strictMono.le_iff_le

lemma scoreMatch_eq_iff (doc : Str) (anchor : Anchor) (m m' : Nat × Nat) :
    scoreMatch doc anchor m = scoreMatch doc anchor m' ↔
      halfScore doc anchor m = halfScore doc anchor m' :=
  ⟨fun h => scoreMatch_strictMono.injective h, fun h => by unfold scoreMatch; rw [h]⟩

/-! ## The scoring rule, stated the way the specification words it -/

/-- Number of leading positions at which two strings agree, phrased
independently of the loop in the code: the length of the largest initial
run of equal character pairs. -/
def matchRun (xs ys : Str) : Nat :=
  ((xs.zip ys).takeWhile (fun p => p.1 == p.2)).length

/-- The claim's scoring rule, stated with its own vocabulary: +100 when
the actual suffix starts with the stored non-empty suffix, else +1 per
character matching in order from the start of the suffix until the first
mismatch; +50 when the actual prefix ends with the stored non-empty
prefix, else +0.5 per character matching walking backward from the end of
the prefix until the first mismatch.  The actual prefix and suffix are the
32-character windows around the candidate in the current document. -/
def specScore (doc : Str) (anchor : Anchor) (m : Nat × Nat) : ℚ :=
  let actualPref := substring doc (m.1 - CONTEXT_LENGTH) m.1
  let actualSuffix := substring doc m.2 (min doc.length (m.2 + CONTEXT_LENGTH))
  (if anchor.suffix ≠ [] ∧ anchor.suffix <+: actualSuffix then (100 : ℚ)
    else (matchRun anchor.suffix actualSuffix : ℚ))
  + (if anchor.pref ≠ [] ∧ anchor.pref <:+ actualPref then (50 : ℚ)
    else (matchRun anchor.pref.reverse actualPref.reverse : ℚ) * (1 / 2))

lemma countFwd_eq_matchRun : ∀ xs ys : Str, countFwd xs ys = matchRun xs ys := by
  intro xs
  induction xs with
  | nil => intro ys; cases ys <;> rfl
  | cons x xs ih =>
    intro ys
    cases ys with
    | nil => rfl
    | cons y ys =>
      by_cases hxy : x = y
      · simp [countFwd, matchRun, List.zip_cons_cons, List.takeWhile, beq_iff_eq, hxy] at *
        exact ih ys
      · have hbeq : (x == y) = false := by simp [hxy]
        simp [countFwd, matchRun, List.zip_cons_cons, List.takeWhile, hbeq, hxy]

/-- The code's score and the specification's score agree. -/
lemma scoreMatch_eq_specScore (doc : Str) (anchor : Anchor) (m : Nat × Nat) :
    scoreMatch doc anchor m = specScore doc anchor m := by
  unfold scoreMatch halfScore specScore
  have hpre : (anchor.pref.isSuffixOf (substring doc (m.1 - CONTEXT_LENGTH) m.1)) = true
      ↔ anchor.pref <:+ substring doc (m.1 - CONTEXT_LENGTH) m.1 :=
    List.isSuffixOf_iff_suffix
  have hsuf : (anchor.suffix.isPrefixOf
        (substring doc m.2 (min doc.length (m.2 + CONTEXT_LENGTH)))) = true
      ↔ anchor.suffix <+: substring doc m.2 (min doc.length (m.2 + CONTEXT_LENGTH)) :=
    List.isPrefixOf_iff_prefix
  simp only [countFwd_eq_matchRun]
  by_cases h1 : anchor.suffix ≠ [] ∧ anchor.suffix <+:
      substring doc m.2 (min doc.length (m.2 + CONTEXT_LENGTH)) <;>
    by_cases h2 : anchor.pref ≠ [] ∧ anchor.pref <:+
      substring doc (m.1 - CONTEXT_LENGTH) m.1
  · rw [if_pos ⟨h1.1, hsuf.mpr h1.2⟩, if_pos ⟨h2.1, hpre.mpr h2.2⟩, if_pos h1, if_pos h2]
    norm_num
  · rw [if_pos ⟨h1.1, hsuf.mpr h1.2⟩, if_neg (fun hc => h2 ⟨hc.1, hpre.mp hc.2⟩),
      if_pos h1, if_neg h2]
    push_cast
    ring
  · rw [if_neg (fun hc => h1 ⟨hc.1, hsuf.mp hc.2⟩), if_pos ⟨h2.1, hpre.mpr h2.2⟩,
      if_neg h1, if_pos h2]
    push_cast
    ring
  · rw [if_neg (fun hc => h1 ⟨hc.1, hsuf.mp hc.2⟩), if_neg (fun hc => h2 ⟨hc.1, hpre.mp hc.2⟩),
      if_neg h1, if_neg h2]
    push_cast
    ring

/-! ## Unfolding the public find function -/

/-- The scan that `findAnchorPosition` actually runs. -/
def findScan (doc : Str) (anchor : Anchor) : Option (List (Nat × Nat)) :=
  collectMatches doc anchor.exact (doc.length + 1) 0 []

lemma findAnchorPosition_empty (anchor : Anchor) :
    findAnchorPosition [] anchor = some none := rfl

lemma findAnchorPosition_of_scan {doc : Str} {anchor : Anchor}
    (hdoc : doc ≠ []) :
    findAnchorPosition doc anchor =
      match findScan doc anchor with
      | none => none
      | some [] => some none
      | some [m] => some (some m)
      | some (m₁ :: m₂ :: rest) => some (some (bestOf doc anchor m₁ (m₂ :: rest))) := by
  unfold findAnchorPosition findScan
  rw [if_neg (by simpa using hdoc)]

/-- A run of the scan inside a non-empty document rules out the empty
pattern (the empty pattern makes the loop run forever). -/
lemma scan_pat_ne_nil {doc : Str} {anchor : Anchor} {ms : List (Nat × Nat)}
    (h : findScan doc anchor = some ms) : anchor.exact ≠ [] := by
  intro hnil
  rw [findScan, hnil, collectMatches_nil_pat] at h
  exact Option.noConfusion h

/-- A singleton occurrence list is exactly a unique occurrence. -/
lemma occList_unique {doc pat : Str} {p : Nat} (h : occList doc pat = [p]) :
    OccursAt doc pat p ∧ ∀ i, OccursAt doc pat i → i = p := by
  constructor
  · have hp : p ∈ occList doc pat := by rw [h]; exact List.mem_singleton_self p
    exact (mem_occList doc pat p).mp hp
  · intro i hi
    have hmem : i ∈ occList doc pat := (mem_occList doc pat i).mpr hi
    rw [h] at hmem
    exact List.mem_singleton.mp hmem

/-! ## The claims -/

/-- C5: for every in-bounds range, createAnchor returns the selected text
as `exact` (the document decomposes around it at the selection), the at
most 32 characters right before the selection as the prefix field and the
at most 32 characters right after it as `suffix`; both context fields are
clipped to 32 characters and to the document boundaries, becoming empty at
the corresponding document edge, and the call is total. -/
theorem createAnchor_spec (doc : Str) (frm til : Nat)
    (h1 : frm ≤ til) (h2 : til ≤ doc.length) :
    doc = doc.take frm ++ (createAnchor doc frm til).exact ++ doc.drop til
    ∧ (createAnchor doc frm til).exact.length = til - frm
    ∧ (createAnchor doc frm til).pref <:+ doc.take frm
    ∧ (createAnchor doc frm til).pref.length = min CONTEXT_LENGTH frm
    ∧ (createAnchor doc frm til).suffix <+: doc.drop til
    ∧ (createAnchor doc frm til).suffix.length = min CONTEXT_LENGTH (doc.length - til)
    ∧ (createAnchor doc frm til).pref.length ≤ CONTEXT_LENGTH
    ∧ (createAnchor doc frm til).suffix.length ≤ CONTEXT_LENGTH
    ∧ (frm = 0 → (createAnchor doc frm til).pref = [])
    ∧ (til = doc.length → (createAnchor doc frm til).suffix = []) := by
  have hfl : frm ≤ doc.length := le_trans h1 h2
  have hdecomp : doc = doc.take frm ++ (createAnchor doc frm til).exact ++ doc.drop til := by
    have hsplit : (doc.drop frm).take (til - frm) ++ (doc.drop frm).drop (til - frm)
        = doc.drop frm := List.take_append_drop _ _
    have hdd : (doc.drop frm).drop (til - frm) = doc.drop til := by
      rw [List.drop_drop]
      congr 1
      omega
    calc doc = doc.take frm ++ doc.drop frm := (List.take_append_drop frm doc).symm
      _ = doc.take frm ++ ((doc.drop frm).take (til - frm) ++ (doc.drop frm).drop (til - frm)) := by
          rw [hsplit]
      _ = doc.take frm ++ (createAnchor doc frm til).exact ++ doc.drop til := by
          rw [hdd, List.append_assoc]
          rfl
  have hexlen : (createAnchor doc frm til).exact.length = til - frm := by
    show (substring doc frm til).length = til - frm
    rw [substring_length]
    omega
  have hprefdrop : (createAnchor doc frm til).pref = (doc.take frm).drop (frm - CONTEXT_LENGTH) := by
    show substring doc (frm - CONTEXT_LENGTH) frm = (doc.take frm).drop (frm - CONTEXT_LENGTH)
    rw [List.drop_take]
    rfl
  have hpreflen : (createAnchor doc frm til).pref.length = min CONTEXT_LENGTH frm := by
    show (substring doc (frm - CONTEXT_LENGTH) frm).length = min CONTEXT_LENGTH frm
    rw [substring_length]
    have h32 : CONTEXT_LENGTH = 32 := rfl
    omega
  have hsuffpre : (createAnchor doc frm til).suffix <+: doc.drop til := by
    show (doc.drop til).take (min doc.length (til + CONTEXT_LENGTH) - til) <+: doc.drop til
    exact List.take_prefix _ _
  have hsufflen : (createAnchor doc frm til).suffix.length
      = min CONTEXT_LENGTH (doc.length - til) := by
    show (substring doc til (min doc.length (til + CONTEXT_LENGTH))).length
      = min CONTEXT_LENGTH (doc.length - til)
    rw [substring_length]
    have h32 : CONTEXT_LENGTH = 32 := rfl
    omega
  refine ⟨hdecomp, hexlen, ?_, hpreflen, hsuffpre, hsufflen, ?_, ?_, ?_, ?_⟩
  · rw [hprefdrop]
    exact List.drop_suffix _ _
  · rw [hpreflen]; omega
  · rw [hsufflen]; omega
  · intro h0
    have := hpreflen
    rw [h0] at this ⊢
    simp at this
    exact this
  · intro hend
    have := hsufflen
    rw [hend] at this ⊢
    simp at this
    exact this

/-- C5 witness: the theorem applied to the document "hello" with the
selection from 1 to 3. -/
theorem createAnchor_spec_witness :
    ((1 : Nat) ≤ 3 ∧ (3 : Nat) ≤ ['h','e','l','l','o'].length)
    ∧ (['h','e','l','l','o'] = ['h','e','l','l','o'].take 1
        ++ (createAnchor ['h','e','l','l','o'] 1 3).exact ++ ['h','e','l','l','o'].drop 3
      ∧ (createAnchor ['h','e','l','l','o'] 1 3).exact.length = 3 - 1
      ∧ (createAnchor ['h','e','l','l','o'] 1 3).pref <:+ ['h','e','l','l','o'].take 1
      ∧ (createAnchor ['h','e','l','l','o'] 1 3).pref.length = min CONTEXT_LENGTH 1
      ∧ (createAnchor ['h','e','l','l','o'] 1 3).suffix <+: ['h','e','l','l','o'].drop 3
      ∧ (createAnchor ['h','e','l','l','o'] 1 3).suffix.length
          = min CONTEXT_LENGTH (['h','e','l','l','o'].length - 3)
      ∧ (createAnchor ['h','e','l','l','o'] 1 3).pref.length ≤ CONTEXT_LENGTH
      ∧ (createAnchor ['h','e','l','l','o'] 1 3).suffix.length ≤ CONTEXT_LENGTH
      ∧ ((1 : Nat) = 0 → (createAnchor ['h','e','l','l','o'] 1 3).pref = [])
      ∧ ((3 : Nat) = ['h','e','l','l','o'].length →
          (createAnchor ['h','e','l','l','o'] 1 3).suffix = [])) :=
  ⟨⟨by decide, by decide⟩, createAnchor_spec ['h','e','l','l','o'] 1 3 (by decide) (by decide)⟩

/-- C4: findAnchorPosition returns null on the empty document, and on any
non-empty document in which the anchor text occurs nowhere; it does not
throw (the result is an ordinary return value in both cases). -/
theorem no_match_returns_null :
    (∀ anchor : Anchor, findAnchorPosition [] anchor = some none)
    ∧ ∀ (doc : Str) (anchor : Anchor), doc ≠ [] →
        (∀ i, ¬ OccursAt doc anchor.exact i) →
        findAnchorPosition doc anchor = some none := by
  refine ⟨fun anchor => findAnchorPosition_empty anchor, ?_⟩
  intro doc anchor hdoc hno
  have hx : execNext doc anchor.exact 0 = none := by
    cases hx : execNext doc anchor.exact 0 with
    | none => rfl
    | some j => exact absurd (execNext_some hx).2.1 (hno j)
  have hscan : findScan doc anchor = some [] := by
    show collectMatches doc anchor.exact (doc.length + 1) 0 [] = some []
    rw [collectMatches_succ, hx]
  rw [findAnchorPosition_of_scan hdoc, hscan]

/-- C4 witness: the theorem applied to the document "a" and an anchor
whose exact text "b" occurs nowhere in it. -/
theorem no_match_returns_null_witness :
    (['a'] ≠ ([] : Str) ∧ occList ['a'] ['b'] = [])
    ∧ findAnchorPosition [] (Anchor.mk ['x'] ['y'] ['z']) = some none
    ∧ findAnchorPosition ['a'] (Anchor.mk [] ['b'] []) = some none := by
  have hno : ∀ i, ¬ OccursAt ['a'] ['b'] i := by
    intro i hi
    have hmem : i ∈ occList ['a'] ['b'] := (mem_occList ['a'] ['b'] i).mpr hi
    rw [show occList ['a'] ['b'] = [] from by decide] at hmem
    exact List.not_mem_nil i hmem
  exact ⟨⟨by decide, by decide⟩,
    no_match_returns_null.1 (Anchor.mk ['x'] ['y'] ['z']),
    no_match_returns_null.2 ['a'] (Anchor.mk [] ['b'] []) (by decide) hno⟩

/-- C7: false of the code as claimed — with an empty exact text and a
non-empty document, the exec loop never advances lastIndex past a
zero-length match, so findAnchorPosition never returns: no fuel bound
suffices for the loop, and the modelled call yields the
nontermination marker. -/
theorem empty_exact_never_returns :
    (∀ (fuel : Nat) (acc : List (Nat × Nat)),
        collectMatches ['a'] [] fuel 0 acc = none)
    ∧ findAnchorPosition ['a'] (Anchor.mk [] [] []) = none :=
  ⟨collectMatches_nil_pat ['a'], by decide⟩

/-- C10: every non-null result of findAnchorPosition is an in-bounds
range of the searched document whose width is the anchor text's length and
whose content is the anchor text, so callers can index with it directly. -/
theorem find_result_valid (doc : Str) (anchor : Anchor) (f t : Nat)
    (h : findAnchorPosition doc anchor = some (some (f, t))) :
    f ≤ t ∧ t ≤ doc.length ∧ t - f = anchor.exact.length
    ∧ substring doc f t = anchor.exact := by
  have hdoc : doc ≠ [] := by
    intro hnil
    subst hnil
    rw [findAnchorPosition_empty] at h
    simp at h
  rw [findAnchorPosition_of_scan hdoc] at h
  have hmain : ∀ ms : List (Nat × Nat), findScan doc anchor = some ms →
      (f, t) ∈ ms →
      f ≤ t ∧ t ≤ doc.length ∧ t - f = anchor.exact.length
        ∧ substring doc f t = anchor.exact := by
    intro ms hms hmem
    have hms' : collectMatches doc anchor.exact (doc.length + 1) 0 [] = some ms := hms
    obtain ⟨hocc, hend⟩ := collectMatches_occurs hms' (by simp) (f, t) hmem
    have hb := hocc.bound
    refine ⟨by simp at hend; omega, by simp at hend ⊢; omega, by simp at hend ⊢; omega, ?_⟩
    have : substring doc f (f + anchor.exact.length) = anchor.exact := hocc.2
    rw [← this]
    exact substring_self doc f _ _ (by simp at hend; omega)
  cases hscan : findScan doc anchor with
  | none => rw [hscan] at h; exact absurd h (by simp)
  | some ms =>
    rw [hscan] at h
    cases ms with
    | nil => exact absurd h (by simp)
    | cons m₁ tl =>
      cases tl with
      | nil =>
        have hm : m₁ = (f, t) := by simpa using h
        exact hmain [m₁] hscan (by simp [hm])
      | cons m₂ rest =>
        have hb : bestOf doc anchor m₁ (m₂ :: rest) = (f, t) := by simpa using h
        exact hmain (m₁ :: m₂ :: rest) hscan (hb ▸ bestOf_mem doc anchor m₁ (m₂ :: rest))

/-- C10 witness: the theorem applied to the document "abcab" with an
anchor for its second "ab" occurrence; the code returns (3, 5), which is
in bounds and carries the anchor text. -/
theorem find_result_valid_witness :
    findAnchorPosition ['a','b','c','a','b'] (Anchor.mk ['c'] ['a','b'] []) = some (some (3, 5))
    ∧ (3 ≤ 5 ∧ 5 ≤ ['a','b','c','a','b'].length
        ∧ 5 - 3 = (Anchor.mk ['c'] ['a','b'] []).exact.length
        ∧ substring ['a','b','c','a','b'] 3 5 = (Anchor.mk ['c'] ['a','b'] []).exact) :=
  ⟨by decide, find_result_valid ['a','b','c','a','b'] (Anchor.mk ['c'] ['a','b'] []) 3 5 (by decide)⟩

/-- C8: addToHistory (the design document's createSnapshot) always slices
the list to the entries at positions up to the current index, appends the
new entry, and repoints the index at the new tail; in particular the
add, add, add, back, back, add sequence ends with two stored entries and
index 1 (the third entry is discarded). -/
theorem history_branch_truncation :
    (∀ (α : Type) (s : HistState α) (e : α),
        (addToHistory e s).navigationHistory
          = s.navigationHistory.take (s.historyIndex + 1).toNat ++ [e]
        ∧ (addToHistory e s).historyIndex
          = ((addToHistory e s).navigationHistory.length : Int) - 1
        ∧ (addToHistory e s).navigationHistory.length
          = min (s.historyIndex + 1).toNat s.navigationHistory.length + 1)
    ∧ (addToHistory 4 ((goBack ((goBack (addToHistory 3 (addToHistory 2
          (addToHistory 1 (initialHistState (α := Nat)))))).2)).2)).navigationHistory.length = 2
    ∧ (addToHistory 4 ((goBack ((goBack (addToHistory 3 (addToHistory 2
          (addToHistory 1 (initialHistState (α := Nat)))))).2)).2)).historyIndex = 1 := by
  refine ⟨fun α s e => ⟨rfl, rfl, ?_⟩, by decide, by decide⟩
  simp [addToHistory]

/-- C9: goBack (the design document's undo) at index at most 0 yields
nothing and leaves the state untouched, otherwise it moves the index back
exactly one and yields the entry now pointed to; goForward (redo)
symmetrically at the tail and below the tail.  The invariant hypotheses
are the FileHistory invariant -1 <= index < length. -/
theorem undo_redo_boundary {α : Type} (s : HistState α)
    (hlo : -1 ≤ s.historyIndex)
    (hhi : s.historyIndex < (s.navigationHistory.length : Int)) :
    (s.historyIndex ≤ 0 → goBack s = (none, s))
    ∧ (0 < s.historyIndex → ∃ snap,
        s.navigationHistory[(s.historyIndex - 1).toNat]? = some snap
        ∧ goBack s = (some snap,
            { navigationHistory := s.navigationHistory, historyIndex := s.historyIndex - 1 }))
    ∧ ((s.navigationHistory.length : Int) - 1 ≤ s.historyIndex → goForward s = (none, s))
    ∧ (s.historyIndex < (s.navigationHistory.length : Int) - 1 → ∃ snap,
        s.navigationHistory[(s.historyIndex + 1).toNat]? = some snap
        ∧ goForward s = (some snap,
            { navigationHistory := s.navigationHistory, historyIndex := s.historyIndex + 1 })) := by
  refine ⟨?_, ?_, ?_, ?_⟩
  · intro h
    rw [goBack, if_pos h]
  · intro h
    have hidx : (s.historyIndex - 1).toNat < s.navigationHistory.length := by omega
    refine ⟨s.navigationHistory[(s.historyIndex - 1).toNat], List.getElem?_eq_getElem hidx, ?_⟩
    rw [goBack, if_neg (by omega), List.getElem?_eq_getElem hidx]
  · intro h
    rw [goForward, if_pos h]
  · intro h
    have hidx : (s.historyIndex + 1).toNat < s.navigationHistory.length := by omega
    refine ⟨s.navigationHistory[(s.historyIndex + 1).toNat], List.getElem?_eq_getElem hidx, ?_⟩
    rw [goForward, if_neg (by omega), List.getElem?_eq_getElem hidx]

/-- C9 witness: the theorem applied to the state with entries 10, 20, 30
and index 1: goBack yields entry 10 at index 0, goForward yields entry 30
at index 2, and neither boundary branch fires. -/
theorem undo_redo_boundary_witness :
    ((-1 : Int) ≤ 1 ∧ (1 : Int) < ([10, 20, 30] : List Nat).length)
    ∧ goBack (HistState.mk ([10, 20, 30] : List Nat) 1) =
        (some 10, HistState.mk ([10, 20, 30] : List Nat) 0)
    ∧ goForward (HistState.mk ([10, 20, 30] : List Nat) 1) =
        (some 30, HistState.mk ([10, 20, 30] : List Nat) 2) := by
  have h := undo_redo_boundary (HistState.mk ([10, 20, 30] : List Nat) 1)
    (by decide) (by decide)
  obtain ⟨-, h2, -, h4⟩ := h
  obtain ⟨snapb, hb1, hb2⟩ := h2 (by decide)
  obtain ⟨snapf, hf1, hf2⟩ := h4 (by decide)
  have hsb : snapb = 10 := by
    rw [show ((1 : Int) - 1).toNat = 0 from rfl] at hb1
    simpa using hb1.symm
  have hsf : snapf = 30 := by
    rw [show ((1 : Int) + 1).toNat = 2 from rfl] at hf1
    simpa using hf1.symm
  subst hsb
  subst hsf
  exact ⟨⟨by decide, by decide⟩, hb2, hf2⟩

/-- C1 counterexample: in the document "aaa" the selection from 1 to 3
("aa", with an overlapping earlier occurrence at 0) does not round-trip:
the global-regex scan only finds the occurrence at 0, so
findAnchorPosition returns (0, 2) and not (1, 3). -/
theorem roundtrip_counterexample :
    findAnchorPosition ['a','a','a'] (createAnchor ['a','a','a'] 1 3) = some (some (0, 2))
    ∧ findAnchorPosition ['a','a','a'] (createAnchor ['a','a','a'] 1 3) ≠ some (some (1, 3)) := by
  decide

/-- C1 amended: the round-trip returns exactly the original range for
every non-empty selection whose selected text occurs exactly once in the
document. -/
theorem roundtrip_unique_occurrence (doc : Str) (frm til : Nat)
    (h1 : frm < til) (h2 : til ≤ doc.length)
    (huniq : ∀ i, OccursAt doc (substring doc frm til) i → i = frm) :
    findAnchorPosition doc (createAnchor doc frm til) = some (some (frm, til)) := by
  have hocc : OccursAt doc (substring doc frm til) frm :=
    occursAt_substring doc frm til (le_of_lt h1) h2
  have hlen : (substring doc frm til).length = til - frm := by
    rw [substring_length]
    omega
  have hpat : substring doc frm til ≠ [] := by
    intro hnil
    rw [hnil] at hlen
    simp at hlen
    omega
  have hdoc : doc ≠ [] := by
    intro hnil
    subst hnil
    simp at h2
    omega
  have hscan : findScan doc (createAnchor doc frm til)
      = some [(frm, frm + (substring doc frm til).length)] :=
    collectMatches_unique hpat hocc huniq
  rw [findAnchorPosition_of_scan hdoc, hscan]
  show some (some (frm, frm + (substring doc frm til).length)) = some (some (frm, til))
  rw [hlen, show frm + (til - frm) = til from by omega]

/-- C1 witness: the theorem applied to the document "abc" and the
selection of its (unique) "b" from 1 to 2. -/
theorem roundtrip_unique_occurrence_witness :
    ((1 : Nat) < 2 ∧ (2 : Nat) ≤ ['a','b','c'].length
      ∧ occList ['a','b','c'] (substring ['a','b','c'] 1 2) = [1])
    ∧ findAnchorPosition ['a','b','c'] (createAnchor ['a','b','c'] 1 2) = some (some (1, 2)) := by
  have huniq := (occList_unique
    (show occList ['a','b','c'] (substring ['a','b','c'] 1 2) = [1] from by decide)).2
  exact ⟨⟨by decide, by decide, by decide⟩,
    roundtrip_unique_occurrence ['a','b','c'] 1 2 (by decide) (by decide) huniq⟩

/-- C3 counterexample: in the empty document the empty anchor text occurs
exactly once (at index 0), yet findAnchorPosition returns null via the
empty-document early return instead of that occurrence. -/
theorem single_occurrence_empty_doc_counterexample :
    occList [] [] = [0]
    ∧ findAnchorPosition [] (Anchor.mk [] [] []) = some none
    ∧ findAnchorPosition [] (Anchor.mk [] [] []) ≠ some (some (0, 0)) := by
  decide

/-- C3 amended: for every NON-EMPTY document in which the anchor text
occurs exactly once, findAnchorPosition returns that occurrence, no matter
how badly the stored context mismatches. -/
theorem single_occurrence_invariance (doc : Str) (anchor : Anchor) (p : Nat)
    (hdoc : doc ≠ []) (hp : OccursAt doc anchor.exact p)
    (huniq : ∀ i, OccursAt doc anchor.exact i → i = p) :
    findAnchorPosition doc anchor = some (some (p, p + anchor.exact.length)) := by
  have hlen : 1 ≤ doc.length := List.length_pos.mpr hdoc
  have hpat : anchor.exact ≠ [] := by
    intro hnil
    have h0 := huniq 0 (by rw [hnil]; exact occursAt_nil doc 0 (by omega))
    have h1 := huniq 1 (by rw [hnil]; exact occursAt_nil doc 1 (by omega))
    omega
  have hscan : findScan doc anchor = some [(p, p + anchor.exact.length)] :=
    collectMatches_unique hpat hp huniq
  rw [findAnchorPosition_of_scan hdoc, hscan]

/-- C3 witness: the theorem applied to the document "xy" and an anchor
for the unique "y" whose stored contexts "q" and "z" are both wrong. -/
theorem single_occurrence_invariance_witness :
    (['x','y'] ≠ ([] : Str) ∧ occList ['x','y'] ['y'] = [1])
    ∧ findAnchorPosition ['x','y'] (Anchor.mk ['q'] ['y'] ['z']) = some (some (1, 2)) := by
  have h := occList_unique (show occList ['x','y'] ['y'] = [1] from by decide)
  exact ⟨⟨by decide, by decide⟩,
    single_occurrence_invariance ['x','y'] (Anchor.mk ['q'] ['y'] ['z']) 1 (by decide) h.1 h.2⟩

/-- C6 counterexample: "aa" occurs literally in "aaa" at index 1, but the
candidate set computed by the scan is only the single match (0, 2): the
occurrence at 1, overlapping the one selected at 0, is omitted. -/
theorem overlap_omitted_counterexample :
    OccursAt ['a','a','a'] ['a','a'] 1
    ∧ findScan ['a','a','a'] (Anchor.mk [] ['a','a'] []) = some [(0, 2)]
    ∧ ((1, 3) : Nat × Nat) ∉ [((0, 2) : Nat × Nat)] := by
  decide

/-- C6 amended: the candidate set is the greedy left-to-right
non-overlapping set of literal occurrences: every candidate is a literal
occurrence carrying its end index, every literal occurrence either is a
candidate start or begins strictly inside an earlier-selected candidate,
and candidates are listed in strictly increasing document order. -/
theorem candidate_set_greedy (doc : Str) (anchor : Anchor) (ms : List (Nat × Nat))
    (hscan : findScan doc anchor = some ms) :
    (∀ m ∈ ms, OccursAt doc anchor.exact m.1 ∧ m.2 = m.1 + anchor.exact.length)
    ∧ (∀ p, OccursAt doc anchor.exact p →
        ∃ m ∈ ms, m.1 ≤ p ∧ p < m.1 + anchor.exact.length)
    ∧ ms.Pairwise (fun x y => x.1 < y.1) := by
  have hpat := scan_pat_ne_nil hscan
  have hscan' : collectMatches doc anchor.exact (doc.length + 1) 0 [] = some ms := hscan
  exact ⟨collectMatches_occurs hscan' (by simp),
    fun p hp => collectMatches_cover hscan' p (Nat.zero_le p) hp,
    collectMatches_sorted hpat hscan' (by simp) (by simp) (by simp)⟩

/-- C6 witness: the theorem applied to the document "abab" with anchor
text "ab", whose scan yields the two candidates (0, 2) and (2, 4); the
first one is confirmed to be a literal occurrence with its end index. -/
theorem candidate_set_greedy_witness :
    findScan ['a','b','a','b'] (Anchor.mk [] ['a','b'] []) = some [(0, 2), (2, 4)]
    ∧ (OccursAt ['a','b','a','b'] (Anchor.mk [] ['a','b'] []).exact ((0, 2) : Nat × Nat).1
        ∧ ((0, 2) : Nat × Nat).2 = ((0, 2) : Nat × Nat).1
            + (Anchor.mk [] ['a','b'] []).exact.length) := by
  refine ⟨by decide, ?_⟩
  exact (candidate_set_greedy ['a','b','a','b'] (Anchor.mk [] ['a','b'] [])
    [(0, 2), (2, 4)] (by decide)).1 (0, 2) (by decide)

/-- C2 counterexample: in "aaa" the anchor text "aa" (stored context:
prefix "a", suffix empty) occurs more than once, at 0 and at 1; the
occurrence at 1 scores 50 and the one at 0 scores 0, yet the code returns
(0, 2): the overlapping occurrence at 1 never becomes a candidate, so the
claimed highest-scoring occurrence is not returned. -/
theorem scoring_counterexample :
    occList ['a','a','a'] ['a','a'] = [0, 1]
    ∧ scoreMatch ['a','a','a'] (Anchor.mk ['a'] ['a','a'] []) (1, 3) = 50
    ∧ scoreMatch ['a','a','a'] (Anchor.mk ['a'] ['a','a'] []) (0, 2) = 0
    ∧ findAnchorPosition ['a','a','a'] (Anchor.mk ['a'] ['a','a'] []) = some (some (0, 2))
    ∧ findAnchorPosition ['a','a','a'] (Anchor.mk ['a'] ['a','a'] []) ≠ some (some (1, 3)) := by
  refine ⟨by decide, ?_, ?_, by decide, by decide⟩
  · unfold scoreMatch
    rw [show halfScore ['a','a','a'] (Anchor.mk ['a'] ['a','a'] []) (1, 3) = 100 from by decide]
    norm_num
  · unfold scoreMatch
    rw [show halfScore ['a','a','a'] (Anchor.mk ['a'] ['a','a'] []) (0, 2) = 0 from by decide]
    norm_num

/-- C2 amended: when the scan yields at least two candidates, each
candidate is scored exactly as the claim describes (the code's score
coincides with the specification-worded score everywhere), and the
returned candidate has the maximal score, with ties resolved toward the
candidate earliest in the document. -/
theorem multi_candidate_scoring (doc : Str) (anchor : Anchor) (ms : List (Nat × Nat))
    (hdoc : doc ≠ []) (hms : findScan doc anchor = some ms) (hlen : 2 ≤ ms.length) :
    (∀ (d : Str) (a : Anchor) (m : Nat × Nat), scoreMatch d a m = specScore d a m)
    ∧ ∃ b, findAnchorPosition doc anchor = some (some b) ∧ b ∈ ms
        ∧ (∀ m ∈ ms, scoreMatch doc anchor m ≤ scoreMatch doc anchor b)
        ∧ ∀ m ∈ ms, scoreMatch doc anchor m = scoreMatch doc anchor b → b.1 ≤ m.1 := by
  refine ⟨scoreMatch_eq_specScore, ?_⟩
  have hpat := scan_pat_ne_nil hms
  have hms' : collectMatches doc anchor.exact (doc.length + 1) 0 [] = some ms := hms
  have hsorted : ms.Pairwise (fun x y => x.1 < y.1) :=
    collectMatches_sorted hpat hms' (by simp) (by simp) (by simp)
  cases ms with
  | nil => simp at hlen
  | cons m₁ tl =>
    cases tl with
    | nil => simp at hlen
    | cons m₂ rest =>
      rw [findAnchorPosition_of_scan hdoc, hms]
      obtain ⟨l₁, l₂, hdec, hlt, hle⟩ := foldl_max_first (halfScore doc anchor) (m₂ :: rest) m₁
      refine ⟨bestOf doc anchor m₁ (m₂ :: rest), rfl, ?_, ?_, ?_⟩
      · rw [show bestOf doc anchor m₁ (m₂ :: rest)
            = (m₂ :: rest).foldl
                (fun x y => if halfScore doc anchor x < halfScore doc anchor y then y else x) m₁
            from rfl, hdec]
        simp
      · intro m hm
        rw [scoreMatch_le_iff]
        exact hle m hm
      · intro m hm heq
        rw [scoreMatch_eq_iff] at heq
        have hbf : bestOf doc anchor m₁ (m₂ :: rest)
            = (m₂ :: rest).foldl
                (fun x y => if halfScore doc anchor x < halfScore doc anchor y then y else x) m₁ := rfl
        rw [hbf] at heq ⊢
        rw [hdec] at hm hsorted
        rcases List.mem_append.mp hm with hm1 | hm2
        · exact absurd heq (by have := hlt m hm1; omega)
        · rcases List.mem_cons.mp hm2 with rfl | hm3
          · exact le_refl _
          · have hcross := (List.pairwise_append.mp hsorted).2.1
            have := (List.pairwise_cons.mp hcross).1 m hm3
            omega

/-- C2 witness: the theorem applied to the document "abcab" with anchor
text "ab" and stored prefix "c": the scan yields the two candidates
(0, 2) and (3, 5), and the score of (3, 5) equals the
specification-worded score. -/
theorem multi_candidate_scoring_witness :
    (['a','b','c','a','b'] ≠ ([] : Str)
      ∧ findScan ['a','b','c','a','b'] (Anchor.mk ['c'] ['a','b'] []) = some [(0, 2), (3, 5)]
      ∧ 2 ≤ ([((0 : Nat), (2 : Nat)), (3, 5)]).length)
    ∧ scoreMatch ['a','b','c','a','b'] (Anchor.mk ['c'] ['a','b'] []) (3, 5)
        = specScore ['a','b','c','a','b'] (Anchor.mk ['c'] ['a','b'] []) (3, 5) := by
  refine ⟨⟨by decide, by decide, by decide⟩, ?_⟩
  exact (multi_candidate_scoring ['a','b','c','a','b'] (Anchor.mk ['c'] ['a','b'] [])
    [(0, 2), (3, 5)] (by decide) (by decide) (by decide)).1 _ _ _

end Hotnote
